import Mathlib

/-!
Shallow embedding of the Soluna solver (soluna.py) and proofs about it.

A board (`GameState`) is a list of piles, one per symbol; each pile is a
list of stack heights.  Stack heights are modelled as `Int` because the
Python code must validate arbitrary integer inputs (including
non-positive heights).  Python `list.remove` is `List.erase`
(first occurrence), Python `sorted` is `List.insertionSort` with the
corresponding descending relation (stability is irrelevant below:
whenever two sort keys are equal the sorted elements are equal, so
every correct sort returns the same list), and Python `set(...)`
iteration is modelled as first-occurrence de-duplication of the
generation order; `set` iteration order is unspecified in Python, and
every theorem below is insensitive to it.
-/

abbrev GameState := List (List Int)

def NUM_SYMBOLS : Nat := 4

def NUM_TILES : Int := 12

def STARTING_CONFIGURATIONS : List GameState := [
  [[1, 1, 1], [1, 1, 1], [1, 1, 1], [1, 1, 1]],
  [[1, 1, 1, 1], [1, 1, 1], [1, 1, 1], [1, 1]],
  [[1, 1, 1, 1], [1, 1, 1, 1], [1, 1], [1, 1]],
  [[1, 1, 1, 1], [1, 1, 1, 1], [1, 1, 1], [1]],
  [[1, 1, 1, 1], [1, 1, 1, 1], [1, 1, 1, 1], []],
  [[1, 1, 1, 1, 1], [1, 1, 1], [1, 1], [1, 1]],
  [[1, 1, 1, 1, 1], [1, 1, 1], [1, 1, 1], [1]],
  [[1, 1, 1, 1, 1], [1, 1, 1, 1], [1, 1], [1]],
  [[1, 1, 1, 1, 1], [1, 1, 1, 1], [1, 1, 1], []],
  [[1, 1, 1, 1, 1], [1, 1, 1, 1, 1], [1], [1]],
  [[1, 1, 1, 1, 1], [1, 1, 1, 1, 1], [1, 1], []],
  [[1, 1, 1, 1, 1, 1], [1, 1], [1, 1], [1, 1]],
  [[1, 1, 1, 1, 1, 1], [1, 1, 1], [1, 1], [1]],
  [[1, 1, 1, 1, 1, 1], [1, 1, 1], [1, 1, 1], []],
  [[1, 1, 1, 1, 1, 1], [1, 1, 1, 1], [1], [1]],
  [[1, 1, 1, 1, 1, 1], [1, 1, 1, 1], [1, 1], []]]

/-- Number of stacks in a board (soluna.py `get_total_stacks`). -/
def get_total_stacks (board : GameState) : Nat :=
  (board.map List.length).sum

/-- Total number of tiles on a board: the sum of all stack heights. -/
def total_tiles (board : GameState) : Int :=
  (board.map List.sum).sum

/-- Move number of a board (soluna.py `get_move_num`):
`NUM_TILES - get_total_stacks(board) + 1`. -/
def get_move_num (board : GameState) : Int :=
  NUM_TILES - (get_total_stacks board : Int) + 1

/-- soluna.py `is_player1_turn`: `get_move_num(board) % 2`
(1 when it is player 1 to move, 0 otherwise).  Lean `Int.emod` with a
positive modulus agrees with Python `%`. -/
def is_player1_turn (board : GameState) : Int :=
  get_move_num board % 2

/-- soluna.py `get_wanted_score`: `2 * is_player1_turn(board) - 1`. -/
def get_wanted_score (board : GameState) : Int :=
  2 * is_player1_turn board - 1

/-- Python lexicographic `<` on integer lists. -/
def listLt : List Int → List Int → Bool
  | _, [] => false
  | [], _ :: _ => true
  | a :: as, b :: bs => if a < b then true else if b < a then false else listLt as bs

/-- Strict comparison of the sort key `(len(symbol), symbol)` used by
`normalize_position` (Python tuple comparison). -/
def symbolKeyLt (s t : List Int) : Bool :=
  if s.length < t.length then true
  else if t.length < s.length then false
  else listLt s t

/-- The `le` relation under which piles are ordered by
`sorted(..., key=lambda symbol: (len(symbol), symbol), reverse=True)`:
pile `s` may come before pile `t` iff the key of `s` is not less than
the key of `t`. -/
def symbolKeyGe (s t : List Int) : Bool :=
  ! symbolKeyLt s t

/-- `symbolKeyGe` as a decidable relation. -/
def symbol_key_ge (s t : List Int) : Prop :=
  symbolKeyGe s t = true

instance : DecidableRel symbol_key_ge :=
  fun s t => instDecidableEqBool (symbolKeyGe s t) true

/-- Descending comparison used by `sorted(self.board[i], reverse=True)`. -/
def stack_ge (a b : Int) : Prop :=
  b ≤ a

instance : DecidableRel stack_ge :=
  fun a b => Int.decLe b a

/-- Soluna.normalize_position: sort each pile's heights descending, then
sort the piles by `(len(symbol), symbol)` descending.  The Python method
mutates `self.board`; this is the value it leaves behind.  Python's
stable `sorted` is modelled by `List.insertionSort`; the two agree
because whenever two sort keys here are equal the sorted elements are
themselves equal, so every correct sort produces the same list. -/
def normalize_position (board : GameState) : GameState :=
  (board.map (fun symbol => symbol.insertionSort stack_ge)).insertionSort symbol_key_ge

/-- Soluna.validate_board.  Returns `Except.error msg` exactly when the
Python method raises `ValueError(msg)`.  (The Python `isinstance` check
is vacuous here since heights are integers by type.) -/
def validate_board (board : GameState) : Except String Unit :=
  if board.length ≠ NUM_SYMBOLS then
    Except.error "Invalid board: Board does not have exactly 4 symbols."
  else if ((board.filter (fun symbol => ! symbol.isEmpty)).map List.sum).sum ≠ NUM_TILES then
    Except.error "Invalid board: Board does not have exactly 12 tiles."
  else if ! board.all (fun symbol => symbol.all (fun stack => 1 ≤ stack)) then
    Except.error "Invalid board: Board\x27s stacks must be positive integers."
  else Except.ok ()

/-- Soluna.__init__: validate the board, then (only if validation
succeeded) normalize it.  The returned value is `self.board` of the
constructed game; an error is the raised `ValueError` message. -/
def soluna_new (board : GameState) : Except String GameState :=
  match validate_board board with
  | Except.error e => Except.error e
  | Except.ok _ => Except.ok (normalize_position board)

/-- itertools.combinations(l, 2): all (earlier, later) value pairs, in
generation order. -/
def combinations2 {α : Type} : List α → List (α × α)
  | [] => []
  | x :: xs => xs.map (fun y => (x, y)) ++ combinations2 xs

/-- First-occurrence de-duplication.  This is literally the
`unique_moves` accumulation loop at the end of `Soluna.get_moves`, and
it also serves as the model of Python `set(...)` iteration. -/
def unique_list {α : Type} [DecidableEq α] (l : List α) : List α :=
  l.foldl (fun acc x => if x ∈ acc then acc else acc ++ [x]) []

/-- The same-symbol phase of `Soluna.get_moves`: for each pile index and
each distinct value pair from `set(combinations(symbol, 2))`, one
candidate mutation.  Iteration contents are those of the board at call
time (the restore step puts the board back after every candidate). -/
def same_symbol_iters (board : GameState) : List (Nat × Int × Int) :=
  board.enum.flatMap (fun p =>
    (unique_list (combinations2 p.2)).map (fun q => (p.1, q.1, q.2)))

/-- One same-symbol candidate: remove both chosen heights from the pile
(first occurrences, as Python `list.remove`), append their sum, then
normalize. -/
def same_symbol_apply (board : GameState) (it : Nat × Int × Int) : GameState :=
  normalize_position (board.set it.1
    (((board.getD it.1 []).erase it.2.1).erase it.2.2 ++ [it.2.1 + it.2.2]))

/-- The cross-symbol phase of `Soluna.get_moves`: for each pair of
distinct symbols from `combinations(range(NUM_SYMBOLS), 2)` and each
height in `set(board[i]) & set(board[j])`, two candidates — append the
doubled stack to the first symbol (`true`) or to the second (`false`). -/
def cross_symbol_iters (board : GameState) : List ((Nat × Nat) × Int × Bool) :=
  (combinations2 (List.range NUM_SYMBOLS)).flatMap (fun ij =>
    (unique_list ((board.getD ij.1 []).filter
        (fun x => decide (x ∈ board.getD ij.2 [])))).flatMap
      (fun num => [(ij, num, true), (ij, num, false)]))

/-- One cross-symbol candidate: remove the shared height from both
piles, append its double to the chosen pile, then normalize. -/
def cross_symbol_apply (board : GameState) (it : (Nat × Nat) × Int × Bool) : GameState :=
  let i := it.1.1
  let j := it.1.2
  let num := it.2.1
  let p1 := (board.getD i []).erase num
  let p2 := (board.getD j []).erase num
  if it.2.2 then
    normalize_position ((board.set i (p1 ++ [num * 2])).set j p2)
  else
    normalize_position ((board.set i p1).set j (p2 ++ [num * 2]))

/-- The list `possible_moves` accumulated by `Soluna.get_moves` before
de-duplication. -/
def possible_moves_list (board : GameState) : List GameState :=
  (same_symbol_iters board).map (same_symbol_apply board)
    ++ (cross_symbol_iters board).map (cross_symbol_apply board)

/-- Soluna.get_moves as a pure function of the receiver's board. -/
def get_moves (board : GameState) : List GameState :=
  unique_list (possible_moves_list board)

/-- Stateful model of `Soluna.get_moves` for the frame property: the
pair is (returned move list, value of `self.board` after the call).
Each candidate iteration reads the current board, produces a normalized
move, and then restores `self.board` from `board_copy` — exactly the
mutate / normalize / append / restore cycle of the Python method. -/
def get_moves_proc (self_board : GameState) : List GameState × GameState :=
  let board_copy := self_board
  let st1 := (same_symbol_iters self_board).foldl
    (fun st it => (board_copy, st.2 ++ [same_symbol_apply st.1 it]))
    (self_board, ([] : List GameState))
  let st2 := (cross_symbol_iters self_board).foldl
    (fun st it => (board_copy, st.2 ++ [cross_symbol_apply st.1 it])) st1
  (unique_list st2.2, st2.1)

/-- The largest stack count appearing in a layer of positions. -/
def layer_bound (layer : List GameState) : Nat :=
  (layer.map get_total_stacks).foldr max 0

/-- One step of the layer loop in `get_all_positions`: construct a
Soluna game from each position of the layer (reachable positions are
always valid, so construction amounts to normalization) and collect the
set of all moves.  -/
def expand_layer (layer : List GameState) : List GameState :=
  unique_list (layer.flatMap (fun position => get_moves (normalize_position position)))

/-- Fuel-indexed version of the layer loop of `get_all_positions`:
append the expansion of the current layer as long as it is nonempty.
`expand_layers` supplies enough fuel that the `0` case is never the
reason the loop stops. -/
def expand_layers_fuel : Nat → List GameState → List (List GameState)
  | 0, layer => [layer]
  | fuel + 1, layer =>
    let next := expand_layer layer
    if next = [] then [layer] else layer :: expand_layers_fuel fuel next

/-- The list of layers built by `get_all_positions`, starting from a
given first layer.  Every move decreases the stack count by one, so
`layer_bound layer` steps of fuel always suffice. -/
def expand_layers (layer : List GameState) : List (List GameState) :=
  expand_layers_fuel (layer_bound layer) layer

/-- The first layer of `get_all_positions`:
`set(nlist_to_ntup(config) for config in STARTING_CONFIGURATIONS)`. -/
def start_layer : List GameState :=
  unique_list STARTING_CONFIGURATIONS

/-- soluna.py `get_all_positions`: all layers, flattened. -/
def get_all_positions : List GameState :=
  (expand_layers start_layer).flatten

/-- Fuel-indexed core of `evaluate_board`.  One unit of fuel is spent
per ply; `evaluate_board` supplies the stack count of the board, which
suffices because every move removes a stack.  The memoizing store reads
and writes of the Python function cache exactly the values this
recursion computes (the store interaction itself is modelled by
`evaluate_board_step` below). -/
def evaluate_board_fuel : Nat → GameState → Int
  | 0, board => -(get_wanted_score board)
  | fuel + 1, board =>
    let g := normalize_position board
    if (get_moves g).any (fun m => evaluate_board_fuel fuel m == get_wanted_score board)
    then get_wanted_score board
    else -(get_wanted_score board)

/-- soluna.py `evaluate_board`, as the game value it computes:
`wanted` when some move keeps the value at `wanted`, `-wanted`
otherwise (in particular `-wanted` for a board with no moves). -/
def evaluate_board (board : GameState) : Int :=
  evaluate_board_fuel (get_total_stacks board) board

/-- A write issued against the `soluna` table. -/
inductive DbWrite
  | update (key : GameState) (value : Int)
  | insert (key : GameState) (value : Int)
deriving DecidableEq

/-- Whether a write is an INSERT. -/
def DbWrite.isInsert : DbWrite → Bool
  | DbWrite.update _ _ => false
  | DbWrite.insert _ _ => true

/-- Python truthiness of the fetched `eval` column (NULL and 0 are
falsy). -/
def option_truthy : Option Int → Bool
  | none => false
  | some v => v != 0

/-- One call of soluna.py `evaluate_board` with the store made
explicit.  `lookup` returns `none` when the SELECT fetches no row, and
`some eval_col` when it fetches a row whose `eval` column is
`eval_col` (`none` for NULL).  Recursive child evaluations are
abstracted by `child_eval`.  The result is `none` when the call raises
(subscripting the absent row at `board_data[0]`), otherwise the
returned value together with the writes performed. -/
def evaluate_board_step (lookup : GameState → Option (Option Int))
    (child_eval : GameState → Int) (board : GameState) :
    Option (Int × List DbWrite) :=
  let g := normalize_position board
  let board_data := lookup g
  match board_data with
  | none => none
  | some eval_col =>
    if option_truthy eval_col then some (eval_col.getD 0, [])
    else
      let moves := get_moves g
      let wanted := get_wanted_score board
      let result := if moves.any (fun m => child_eval m == wanted) then wanted else -wanted
      some (result,
        [if board_data.isSome then DbWrite.update g result else DbWrite.insert g result])

/-- The per-position decision of soluna.py `update_simple_best_move`:
given the fetched `is_determined` flag of the position, its possible
moves, the wanted score, the stored evaluations of the moves and their
`is_determined` flags, returns the `best_move` column update (if any)
and the `move_explanation` column update (if any). -/
def update_simple_best_move_row (is_determined : Bool)
    (possible_moves : List GameState) (wanted_score : Int)
    (eval : GameState → Int) (move_is_determined : GameState → Bool) :
    Option GameState × Option String :=
  if is_determined then (none, some "any")
  else
    let winning_moves := possible_moves.filter (fun m => eval m == wanted_score)
    if winning_moves.length == 1 then
      (winning_moves.head?, some "only winning move")
    else if winning_moves.length == 0 then
      let non_determined := possible_moves.filter (fun m => ! move_is_determined m)
      if non_determined.length == 1 then
        (non_determined.head?, some "only move not determined losing")
      else (none, none)
    else (none, none)

/-- The relation between two boards that differ only by a permutation
of the four piles together with permutations of the stack order inside
piles. -/
def pile_perm_equiv (p q : GameState) : Prop :=
  ∃ r, p.Perm r ∧ List.Forall₂ List.Perm r q

instance exceptDecEq {ε α : Type} [DecidableEq ε] [DecidableEq α] :
    DecidableEq (Except ε α) := fun a b =>
  match a, b with
  | Except.ok x, Except.ok y => decidable_of_iff (x = y) (by simp)
  | Except.error x, Except.error y => decidable_of_iff (x = y) (by simp)
  | Except.ok _, Except.error _ => isFalse (by simp)
  | Except.error _, Except.ok _ => isFalse (by simp)

theorem mem_unique_list {α : Type} [DecidableEq α] {x : α} {l : List α} :
    x ∈ unique_list l ↔ x ∈ l := by
  have main : ∀ (l acc : List α),
      x ∈ l.foldl (fun acc y => if y ∈ acc then acc else acc ++ [y]) acc ↔
        x ∈ acc ∨ x ∈ l := by
    intro l
    induction l with
    | nil => intro acc; simp
    | cons y t ih =>
      intro acc
      simp only [List.foldl_cons, ih, List.mem_cons]
      by_cases h : y ∈ acc
      · simp only [if_pos h]
        constructor
        · rintro (hx | hx)
          · exact Or.inl hx
          · exact Or.inr (Or.inr hx)
        · rintro (hx | hx | hx)
          · exact Or.inl hx
          · exact Or.inl (hx ▸ h)
          · exact Or.inr hx
      · simp only [if_neg h, List.mem_append, List.mem_singleton]
        tauto
  simpa using main l []

theorem combinations2_mem {α : Type} [DecidableEq α] {a b : α} :
    ∀ {l : List α}, (a, b) ∈ combinations2 l → a ∈ l ∧ b ∈ l.erase a := by
  intro l
  induction l with
  | nil => simp [combinations2]
  | cons x t ih =>
    intro h
    simp only [combinations2, List.mem_append, List.mem_map] at h
    rcases h with ⟨y, hy, heq⟩ | h
    · obtain ⟨rfl, rfl⟩ := Prod.mk.injEq .. ▸ heq
      refine ⟨List.mem_cons_self _ _, ?_⟩
      rw [List.erase_cons_head]
      exact hy
    · obtain ⟨ha, hb⟩ := ih h
      refine ⟨List.mem_cons_of_mem _ ha, ?_⟩
      by_cases hxa : x = a
      · subst hxa
        rw [List.erase_cons_head]
        exact List.mem_of_mem_erase hb
      · rw [List.erase_cons_tail (by simpa using hxa)]
        exact List.mem_cons_of_mem _ hb

theorem combinations2_mem_lt {a b : Nat} :
    ∀ {l : List Nat}, l.Pairwise (· < ·) → (a, b) ∈ combinations2 l → a < b := by
  intro l
  induction l with
  | nil => simp [combinations2]
  | cons x t ih =>
    intro hpw h
    simp only [combinations2, List.mem_append, List.mem_map] at h
    rcases h with ⟨y, hy, heq⟩ | h
    · obtain ⟨rfl, rfl⟩ := Prod.mk.injEq .. ▸ heq
      exact (List.pairwise_cons.1 hpw).1 _ hy
    · exact ih (List.pairwise_cons.1 hpw).2 h

theorem pair_perm {α : Type} [DecidableEq α] {a b : α} {l : List α}
    (ha : a ∈ l) (hb : b ∈ l.erase a) : l.Perm (a :: b :: (l.erase a).erase b) :=
  (List.perm_cons_erase ha).trans ((List.perm_cons_erase hb).cons a)

theorem map_sum_set_nat (f : List Int → Nat) :
    ∀ (l : GameState) (i : Nat) (x : List Int), i < l.length →
      ((l.set i x).map f).sum + f (l.getD i []) = (l.map f).sum + f x := by
  intro l
  induction l with
  | nil => intro i x h; simp at h
  | cons a t ih =>
    intro i x h
    cases i with
    | zero => simp; omega
    | succ n =>
      simp only [List.set_cons_succ, List.map_cons, List.sum_cons, List.getD_cons_succ]
      have := ih n x (by simpa using h)
      omega

theorem map_sum_set_int (f : List Int → Int) :
    ∀ (l : GameState) (i : Nat) (x : List Int), i < l.length →
      ((l.set i x).map f).sum + f (l.getD i []) = (l.map f).sum + f x := by
  intro l
  induction l with
  | nil => intro i x h; simp at h
  | cons a t ih =>
    intro i x h
    cases i with
    | zero => simp; omega
    | succ n =>
      simp only [List.set_cons_succ, List.map_cons, List.sum_cons, List.getD_cons_succ]
      have := ih n x (by simpa using h)
      omega

theorem perm_normalize (board : GameState) :
    (normalize_position board).Perm (board.map (fun s => s.insertionSort stack_ge)) :=
  List.perm_insertionSort _ _

theorem get_total_stacks_normalize (board : GameState) :
    get_total_stacks (normalize_position board) = get_total_stacks board := by
  unfold get_total_stacks
  rw [((perm_normalize board).map List.length).sum_eq, List.map_map]
  congr 1
  exact List.map_congr_left
    (fun s _ => by simpa using (List.perm_insertionSort stack_ge s).length_eq)

theorem total_tiles_normalize (board : GameState) :
    total_tiles (normalize_position board) = total_tiles board := by
  unfold total_tiles
  rw [((perm_normalize board).map List.sum).sum_eq, List.map_map]
  congr 1
  exact List.map_congr_left
    (fun s _ => by simpa using (List.perm_insertionSort stack_ge s).sum_eq)

theorem getD_eq_nil_of_le {l : GameState} {k : Nat} (h : l.length ≤ k) :
    l.getD k [] = [] := by
  simp [List.getD_eq_getElem?_getD, List.getElem?_eq_none h]

theorem same_symbol_iters_mem {board : GameState} {it : Nat × Int × Int}
    (h : it ∈ same_symbol_iters board) :
    it.1 < board.length ∧ (it.2.1, it.2.2) ∈ combinations2 (board.getD it.1 []) := by
  unfold same_symbol_iters at h
  simp only [List.mem_flatMap, List.mem_map] at h
  obtain ⟨p, hp, q, hq, rfl⟩ := h
  obtain ⟨i, symbol⟩ := p
  have hget : board[i]? = some symbol := List.mk_mem_enum_iff_getElem?.1 hp
  have hlt : i < board.length := by
    by_contra hc
    rw [List.getElem?_eq_none (by omega)] at hget
    exact Option.noConfusion hget
  have hgd : board.getD i [] = symbol := by
    simp [List.getD_eq_getElem?_getD, hget]
  refine ⟨hlt, ?_⟩
  rw [hgd]
  simpa using mem_unique_list.1 hq

theorem same_symbol_apply_stacks {board : GameState} {it : Nat × Int × Int}
    (h : it ∈ same_symbol_iters board) :
    get_total_stacks (same_symbol_apply board it) + 1 = get_total_stacks board := by
  obtain ⟨hlt, hcomb⟩ := same_symbol_iters_mem h
  obtain ⟨ha, hb⟩ := combinations2_mem hcomb
  unfold same_symbol_apply
  rw [get_total_stacks_normalize]
  have hperm := (pair_perm ha hb).length_eq
  have hset := map_sum_set_nat List.length board it.1
    (((board.getD it.1 []).erase it.2.1).erase it.2.2 ++ [it.2.1 + it.2.2]) hlt
  unfold get_total_stacks
  simp only [List.length_append, List.length_cons, List.length_singleton, List.length_nil] at hperm hset ⊢
  omega

theorem same_symbol_apply_tiles {board : GameState} {it : Nat × Int × Int}
    (h : it ∈ same_symbol_iters board) :
    total_tiles (same_symbol_apply board it) = total_tiles board := by
  obtain ⟨hlt, hcomb⟩ := same_symbol_iters_mem h
  obtain ⟨ha, hb⟩ := combinations2_mem hcomb
  unfold same_symbol_apply
  rw [total_tiles_normalize]
  have hperm := (pair_perm ha hb).sum_eq
  have hset := map_sum_set_int List.sum board it.1
    (((board.getD it.1 []).erase it.2.1).erase it.2.2 ++ [it.2.1 + it.2.2]) hlt
  unfold total_tiles
  simp only [List.sum_append, List.sum_cons, List.sum_nil] at hperm hset ⊢
  omega

theorem cross_symbol_iters_mem {board : GameState} {it : (Nat × Nat) × Int × Bool}
    (h : it ∈ cross_symbol_iters board) :
    it.1.1 < board.length ∧ it.1.2 < board.length ∧ it.1.1 < it.1.2 ∧
      it.2.1 ∈ board.getD it.1.1 [] ∧ it.2.1 ∈ board.getD it.1.2 [] := by
  unfold cross_symbol_iters at h
  simp only [List.mem_flatMap] at h
  obtain ⟨ij, hij, num, hnum, hit⟩ := h
  rw [mem_unique_list, List.mem_filter] at hnum
  obtain ⟨hnum1, hnum2⟩ := hnum
  have hnum2 : num ∈ board.getD ij.2 [] := by simpa using hnum2
  have hij' : ij.1 < ij.2 := by
    obtain ⟨i, j⟩ := ij
    exact combinations2_mem_lt (List.pairwise_lt_range _) hij
  have hlt1 : ij.1 < board.length := by
    by_contra hc
    rw [getD_eq_nil_of_le (by omega)] at hnum1
    exact List.not_mem_nil _ hnum1
  have hlt2 : ij.2 < board.length := by
    by_contra hc
    rw [getD_eq_nil_of_le (by omega)] at hnum2
    exact List.not_mem_nil _ hnum2
  have hform : it = (ij, num, true) ∨ it = (ij, num, false) := by
    simpa using hit
  rcases hform with rfl | rfl <;> exact ⟨hlt1, hlt2, hij', hnum1, hnum2⟩

theorem stacks_set_two {board : GameState} {i j : Nat} (hi : i < board.length)
    (hj : j < board.length) (hij : i ≠ j) (x y : List Int) :
    get_total_stacks ((board.set i x).set j y) + (board.getD i []).length
        + (board.getD j []).length
      = get_total_stacks board + x.length + y.length := by
  have h1 := map_sum_set_nat List.length board i x hi
  have h2 := map_sum_set_nat List.length (board.set i x) j y (by simpa using hj)
  have hgd : (board.set i x).getD j [] = board.getD j [] := by
    simp [List.getD_eq_getElem?_getD, List.getElem?_set_ne hij]
  unfold get_total_stacks
  rw [hgd] at h2
  omega

theorem tiles_set_two {board : GameState} {i j : Nat} (hi : i < board.length)
    (hj : j < board.length) (hij : i ≠ j) (x y : List Int) :
    total_tiles ((board.set i x).set j y) + (board.getD i []).sum
        + (board.getD j []).sum
      = total_tiles board + x.sum + y.sum := by
  have h1 := map_sum_set_int List.sum board i x hi
  have h2 := map_sum_set_int List.sum (board.set i x) j y (by simpa using hj)
  have hgd : (board.set i x).getD j [] = board.getD j [] := by
    simp [List.getD_eq_getElem?_getD, List.getElem?_set_ne hij]
  unfold total_tiles
  rw [hgd] at h2
  omega

theorem cross_symbol_apply_stacks {board : GameState} {it : (Nat × Nat) × Int × Bool}
    (h : it ∈ cross_symbol_iters board) :
    get_total_stacks (cross_symbol_apply board it) + 1 = get_total_stacks board := by
  obtain ⟨⟨i, j⟩, num, dir⟩ := it
  obtain ⟨hi, hj, hij, hn1, hn2⟩ := cross_symbol_iters_mem h
  have hi' : i < board.length := hi
  have hj' : j < board.length := hj
  have hij' : i ≠ j := Nat.ne_of_lt hij
  have hm1 : num ∈ board.getD i [] := hn1
  have hm2 : num ∈ board.getD j [] := hn2
  have hp1 := (List.perm_cons_erase hm1).length_eq
  have hp2 := (List.perm_cons_erase hm2).length_eq
  simp only [List.length_cons] at hp1 hp2
  cases dir with
  | false =>
    show get_total_stacks (normalize_position
        ((board.set i ((board.getD i []).erase num)).set j
          ((board.getD j []).erase num ++ [num * 2]))) + 1 = get_total_stacks board
    rw [get_total_stacks_normalize]
    have hset := stacks_set_two hi' hj' hij'
      ((board.getD i []).erase num) ((board.getD j []).erase num ++ [num * 2])
    simp only [List.length_append, List.length_singleton, List.length_nil] at hset
    omega
  | true =>
    show get_total_stacks (normalize_position
        ((board.set i ((board.getD i []).erase num ++ [num * 2])).set j
          ((board.getD j []).erase num))) + 1 = get_total_stacks board
    rw [get_total_stacks_normalize]
    have hset := stacks_set_two hi' hj' hij'
      ((board.getD i []).erase num ++ [num * 2]) ((board.getD j []).erase num)
    simp only [List.length_append, List.length_singleton, List.length_nil] at hset
    omega

theorem cross_symbol_apply_tiles {board : GameState} {it : (Nat × Nat) × Int × Bool}
    (h : it ∈ cross_symbol_iters board) :
    total_tiles (cross_symbol_apply board it) = total_tiles board := by
  obtain ⟨⟨i, j⟩, num, dir⟩ := it
  obtain ⟨hi, hj, hij, hn1, hn2⟩ := cross_symbol_iters_mem h
  have hi' : i < board.length := hi
  have hj' : j < board.length := hj
  have hij' : i ≠ j := Nat.ne_of_lt hij
  have hm1 : num ∈ board.getD i [] := hn1
  have hm2 : num ∈ board.getD j [] := hn2
  have hp1 := (List.perm_cons_erase hm1).sum_eq
  have hp2 := (List.perm_cons_erase hm2).sum_eq
  simp only [List.sum_cons] at hp1 hp2
  cases dir with
  | false =>
    show total_tiles (normalize_position
        ((board.set i ((board.getD i []).erase num)).set j
          ((board.getD j []).erase num ++ [num * 2]))) = total_tiles board
    rw [total_tiles_normalize]
    have hset := tiles_set_two hi' hj' hij'
      ((board.getD i []).erase num) ((board.getD j []).erase num ++ [num * 2])
    simp only [List.sum_append, List.sum_cons, List.sum_nil] at hset
    omega
  | true =>
    show total_tiles (normalize_position
        ((board.set i ((board.getD i []).erase num ++ [num * 2])).set j
          ((board.getD j []).erase num))) = total_tiles board
    rw [total_tiles_normalize]
    have hset := tiles_set_two hi' hj' hij'
      ((board.getD i []).erase num ++ [num * 2]) ((board.getD j []).erase num)
    simp only [List.sum_append, List.sum_cons, List.sum_nil] at hset
    omega

theorem mem_possible_moves {board m : GameState} (h : m ∈ possible_moves_list board) :
    (∃ it ∈ same_symbol_iters board, m = same_symbol_apply board it) ∨
    (∃ it ∈ cross_symbol_iters board, m = cross_symbol_apply board it) := by
  unfold possible_moves_list at h
  rw [List.mem_append] at h
  rcases h with h | h <;> rw [List.mem_map] at h
  · obtain ⟨it, hit, rfl⟩ := h
    exact Or.inl ⟨it, hit, rfl⟩
  · obtain ⟨it, hit, rfl⟩ := h
    exact Or.inr ⟨it, hit, rfl⟩

theorem get_moves_stacks {board m : GameState} (h : m ∈ get_moves board) :
    get_total_stacks m + 1 = get_total_stacks board := by
  rw [get_moves, mem_unique_list] at h
  rcases mem_possible_moves h with ⟨it, hit, rfl⟩ | ⟨it, hit, rfl⟩
  · exact same_symbol_apply_stacks hit
  · exact cross_symbol_apply_stacks hit

theorem get_moves_tiles {board m : GameState} (h : m ∈ get_moves board) :
    total_tiles m = total_tiles board := by
  rw [get_moves, mem_unique_list] at h
  rcases mem_possible_moves h with ⟨it, hit, rfl⟩ | ⟨it, hit, rfl⟩
  · exact same_symbol_apply_tiles hit
  · exact cross_symbol_apply_tiles hit


theorem validate_ok_iff {board : GameState} :
    validate_board board = Except.ok () ↔
      board.length = NUM_SYMBOLS ∧
      ((board.filter (fun symbol => ! symbol.isEmpty)).map List.sum).sum = NUM_TILES ∧
      board.all (fun symbol => symbol.all (fun stack => 1 ≤ stack)) = true := by
  unfold validate_board
  split_ifs with h1 h2 h3 <;> simp_all <;> try assumption

theorem filtered_sum_eq_total_tiles (board : GameState) :
    ((board.filter (fun symbol => ! symbol.isEmpty)).map List.sum).sum = total_tiles board := by
  unfold total_tiles
  induction board with
  | nil => rfl
  | cons a t ih =>
    by_cases h : a.isEmpty
    · have ha : a = [] := by simpa using h
      subst ha
      simpa [List.filter_cons] using ih
    · simp [List.filter_cons, h, ih]

/-- Claim C2: every position in the list returned by the move generator
on a valid position has stack heights summing to 12 and exactly one
stack fewer than its parent. -/
theorem get_moves_preserves_tiles_and_stacks (p m : GameState)
    (hv : validate_board p = Except.ok ()) (hm : m ∈ get_moves p) :
    total_tiles m = 12 ∧ get_total_stacks m + 1 = get_total_stacks p := by
  have ht := get_moves_tiles hm
  have h12 : total_tiles p = 12 := by
    have h := (validate_ok_iff.1 hv).2.1
    rw [filtered_sum_eq_total_tiles] at h
    simpa [NUM_TILES] using h
  exact ⟨by rw [ht, h12], get_moves_stacks hm⟩

/-- Witness for C2 at the position [[6, 6], [], [], []], whose unique
move is [[12], [], [], []]. -/
theorem get_moves_preserves_tiles_and_stacks_witness :
    total_tiles [[12], [], [], []] = 12 ∧
      get_total_stacks [[12], [], [], []] + 1 = get_total_stacks [[6, 6], [], [], []] :=
  get_moves_preserves_tiles_and_stacks [[6, 6], [], [], []] [[12], [], [], []]
    (by decide) (by decide)

/-- Claim C4: a board with the wrong pile count, the wrong tile total,
or a non-positive stack height makes construction fail with the
matching ValueError message, and any construction error is already the
validation error on the raw board — validation fails before
normalization is ever applied. -/
theorem soluna_new_validation (board : GameState) :
    (board.length ≠ 4 →
      soluna_new board =
        Except.error "Invalid board: Board does not have exactly 4 symbols.") ∧
    (board.length = 4 →
      ((board.filter (fun symbol => ! symbol.isEmpty)).map List.sum).sum ≠ 12 →
      soluna_new board =
        Except.error "Invalid board: Board does not have exactly 12 tiles.") ∧
    (board.length = 4 →
      ((board.filter (fun symbol => ! symbol.isEmpty)).map List.sum).sum = 12 →
      ¬ board.all (fun symbol => symbol.all (fun stack => 1 ≤ stack)) = true →
      soluna_new board =
        Except.error "Invalid board: Board\x27s stacks must be positive integers.") ∧
    (∀ e, soluna_new board = Except.error e → validate_board board = Except.error e) := by
  refine ⟨?_, ?_, ?_, ?_⟩
  · intro h1
    unfold soluna_new validate_board
    simp [NUM_SYMBOLS, h1]
  · intro h1 h2
    unfold soluna_new validate_board
    simp [NUM_SYMBOLS, NUM_TILES, h1, h2]
  · intro h1 h2 h3
    unfold soluna_new validate_board
    simp [NUM_SYMBOLS, NUM_TILES, h1, h2, h3]
  · intro e
    unfold soluna_new
    cases hv : validate_board board <;> simp

/-- Witness for C4 at the three malformed boards from the soluna.py
doctests. -/
theorem soluna_new_validation_witness :
    soluna_new [[4, 1], [2, 2], [2, 1], [], []] =
        Except.error "Invalid board: Board does not have exactly 4 symbols." ∧
    soluna_new [[3, 1, 1], [2, 2], [2, 1], [1]] =
        Except.error "Invalid board: Board does not have exactly 12 tiles." ∧
    soluna_new [[4, 1], [2, 2], [2, 1], [0]] =
        Except.error "Invalid board: Board\x27s stacks must be positive integers." :=
  ⟨(soluna_new_validation [[4, 1], [2, 2], [2, 1], [], []]).1 (by decide),
   (soluna_new_validation [[3, 1, 1], [2, 2], [2, 1], [1]]).2.1 (by decide) (by decide),
   (soluna_new_validation [[4, 1], [2, 2], [2, 1], [0]]).2.2.1
     (by decide) (by decide) (by decide)⟩

theorem restore_foldl {α : Type} (orig : GameState) (f : GameState → α → GameState) :
    ∀ (l : List α) (st : GameState × List GameState), st.1 = orig →
      (l.foldl (fun st it => (orig, st.2 ++ [f st.1 it])) st)
        = (orig, st.2 ++ l.map (f orig)) := by
  intro l
  induction l with
  | nil =>
    intro st h
    cases st
    simp_all
  | cons x t ih =>
    intro st h
    simp only [List.foldl_cons, List.map_cons]
    rw [ih (orig, st.2 ++ [f st.1 x]) rfl]
    simp [h]

theorem get_moves_proc_eq (board : GameState) :
    get_moves_proc board = (get_moves board, board) := by
  simp only [get_moves_proc]
  rw [restore_foldl board (fun b it => same_symbol_apply b it) _ _ rfl]
  rw [restore_foldl board (fun b it => cross_symbol_apply b it) _ _ rfl]
  simp [get_moves, possible_moves_list]

/-- Claim C8: the stateful move generation procedure leaves the
receiver's board exactly as it was before the call, and returns the
same move list as the pure move generator. -/
theorem get_moves_frame (board : GameState) :
    (get_moves_proc board).2 = board ∧ (get_moves_proc board).1 = get_moves board := by
  rw [get_moves_proc_eq]
  exact ⟨rfl, rfl⟩

/-- Claim C9: on the golden-fixture board the move generator returns a
duplicate-free list that is a permutation of the sixteen expected
canonical positions from test_soluna.py. -/
theorem get_moves_golden_fixture :
    (get_moves [[3, 2, 1], [2, 1], [2], [1]]).Nodup ∧
    (get_moves [[3, 2, 1], [2, 1], [2], [1]]).Perm [
      [[5, 1], [2, 1], [2], [1]],
      [[4, 2], [2, 1], [2], [1]],
      [[3, 3], [2, 1], [2], [1]],
      [[3, 2, 1], [3], [2], [1]],
      [[3, 2, 1], [4, 1], [1], []],
      [[3, 2, 1], [4], [1], [1]],
      [[3, 2, 1], [2], [2], [2]],
      [[3, 2, 1], [2, 2], [2], []],
      [[4, 3, 1], [2], [1], [1]],
      [[4, 3, 1], [2, 1], [1], []],
      [[3, 2, 2], [2], [2], [1]],
      [[3, 2, 2], [2, 1], [2], []],
      [[4, 1], [3, 1], [2], [1]],
      [[3, 1], [2, 1], [4], [1]],
      [[3, 2], [2, 2], [2], [1]],
      [[3, 2], [2, 1], [2], [2]]] :=
  ⟨by decide, by decide⟩

theorem listLt_asymm : ∀ (s t : List Int), listLt s t = true → listLt t s = false := by
  intro s
  induction s with
  | nil =>
    intro t h
    cases t with
    | nil => simpa [listLt] using h
    | cons b bs => simp [listLt]
  | cons a as ih =>
    intro t h
    cases t with
    | nil => simp [listLt] at h
    | cons b bs =>
      simp only [listLt] at h ⊢
      rcases lt_trichotomy a b with hab | hab | hab
      · rw [if_neg (by omega), if_pos hab]
      · subst hab
        rw [if_neg (by omega), if_neg (by omega)] at h ⊢
        exact ih bs h
      · rw [if_neg (by omega), if_pos hab] at h
        exact absurd h (by simp)

theorem listLt_connex : ∀ (s t : List Int), listLt s t = false → listLt t s = false → s = t := by
  intro s
  induction s with
  | nil =>
    intro t h1 h2
    cases t with
    | nil => rfl
    | cons b bs => simp [listLt] at h1
  | cons a as ih =>
    intro t h1 h2
    cases t with
    | nil => simp [listLt] at h2
    | cons b bs =>
      simp only [listLt] at h1 h2
      rcases lt_trichotomy a b with hab | hab | hab
      · rw [if_pos hab] at h1
        exact absurd h1 (by simp)
      · subst hab
        rw [if_neg (by omega), if_neg (by omega)] at h1 h2
        rw [ih bs h1 h2]
      · rw [if_pos hab] at h2
        exact absurd h2 (by simp)

theorem listLt_trans :
    ∀ (s t u : List Int), listLt s t = true → listLt t u = true → listLt s u = true := by
  intro s
  induction s with
  | nil =>
    intro t u h1 h2
    cases t with
    | nil => simp [listLt] at h1
    | cons b bs =>
      cases u with
      | nil => simp [listLt] at h2
      | cons c cs => simp [listLt]
  | cons a as ih =>
    intro t u h1 h2
    cases t with
    | nil => simp [listLt] at h1
    | cons b bs =>
      cases u with
      | nil => simp [listLt] at h2
      | cons c cs =>
        simp only [listLt] at h1 h2 ⊢
        rcases lt_trichotomy a b with hab | hab | hab
        · rcases lt_trichotomy b c with hbc | hbc | hbc
          · rw [if_pos (by omega)]
          · subst hbc
            rw [if_pos hab]
          · rw [if_neg (by omega), if_pos hbc] at h2
            exact absurd h2 (by simp)
        · subst hab
          rcases lt_trichotomy a c with hac | hac | hac
          · rw [if_pos hac]
          · subst hac
            rw [if_neg (by omega), if_neg (by omega)] at h1 h2 ⊢
            exact ih bs cs h1 h2
          · rw [if_neg (by omega), if_pos hac] at h2
            exact absurd h2 (by simp)
        · rw [if_neg (by omega), if_pos hab] at h1
          exact absurd h1 (by simp)

theorem symbolKeyLt_asymm {s t : List Int} (h : symbolKeyLt s t = true) :
    symbolKeyLt t s = false := by
  unfold symbolKeyLt at h ⊢
  rcases Nat.lt_trichotomy s.length t.length with hlt | heq | hgt
  · rw [if_neg (by omega), if_pos hlt]
  · rw [if_neg (by omega), if_neg (by omega)] at h ⊢
    exact listLt_asymm s t h
  · rw [if_neg (by omega), if_pos hgt] at h
    exact absurd h (by simp)

theorem symbolKeyLt_connex {s t : List Int} (h1 : symbolKeyLt s t = false)
    (h2 : symbolKeyLt t s = false) : s = t := by
  unfold symbolKeyLt at h1 h2
  rcases Nat.lt_trichotomy s.length t.length with hlt | heq | hgt
  · rw [if_pos hlt] at h1
    exact absurd h1 (by simp)
  · rw [if_neg (by omega), if_neg (by omega)] at h1 h2
    exact listLt_connex s t h1 h2
  · rw [if_pos hgt] at h2
    exact absurd h2 (by simp)

theorem symbolKeyLt_trans {s t u : List Int} (h1 : symbolKeyLt s t = true)
    (h2 : symbolKeyLt t u = true) : symbolKeyLt s u = true := by
  unfold symbolKeyLt at h1 h2 ⊢
  rcases Nat.lt_trichotomy s.length t.length with hst | hst | hst
  · rcases Nat.lt_trichotomy t.length u.length with htu | htu | htu
    · rw [if_pos (by omega)]
    · rw [if_pos (by omega)]
    · rw [if_neg (by omega)] at h2
      rw [if_pos htu] at h2
      exact absurd h2 (by simp)
  · rcases Nat.lt_trichotomy t.length u.length with htu | htu | htu
    · rw [if_pos (by omega)]
    · rw [if_neg (by omega), if_neg (by omega)] at h1 h2 ⊢
      exact listLt_trans s t u h1 h2
    · rw [if_neg (by omega), if_pos htu] at h2
      exact absurd h2 (by simp)
  · rw [if_neg (by omega), if_pos hst] at h1
    exact absurd h1 (by simp)

theorem symbol_key_ge_iff {s t : List Int} :
    symbol_key_ge s t ↔ symbolKeyLt s t = false := by
  unfold symbol_key_ge symbolKeyGe
  cases h : symbolKeyLt s t <;> simp

instance : IsTotal Int stack_ge :=
  ⟨fun a b => le_total b a⟩

instance : IsTrans Int stack_ge :=
  ⟨fun _ _ _ h1 h2 => le_trans h2 h1⟩

instance : IsAntisymm Int stack_ge :=
  ⟨fun _ _ h1 h2 => le_antisymm h2 h1⟩

instance : IsTotal (List Int) symbol_key_ge := by
  constructor
  intro s t
  rw [symbol_key_ge_iff, symbol_key_ge_iff]
  cases h : symbolKeyLt s t with
  | false => exact Or.inl rfl
  | true => exact Or.inr (symbolKeyLt_asymm h)

instance : IsTrans (List Int) symbol_key_ge := by
  constructor
  intro s t u h1 h2
  rw [symbol_key_ge_iff] at h1 h2 ⊢
  cases hsu : symbolKeyLt s u with
  | false => rfl
  | true =>
    exfalso
    cases hts : symbolKeyLt t s with
    | false =>
      have := symbolKeyLt_connex h1 hts
      subst this
      rw [h2] at hsu
      exact Bool.noConfusion hsu
    | true =>
      have := symbolKeyLt_trans hts hsu
      rw [this] at h2
      exact Bool.noConfusion h2

instance : IsAntisymm (List Int) symbol_key_ge := by
  constructor
  intro s t h1 h2
  rw [symbol_key_ge_iff] at h1 h2
  exact symbolKeyLt_connex h1 h2

theorem pile_sort_eq_of_perm {a b : List Int} (h : a.Perm b) :
    a.insertionSort stack_ge = b.insertionSort stack_ge :=
  List.eq_of_perm_of_sorted
    ((List.perm_insertionSort _ _).trans (h.trans (List.perm_insertionSort _ _).symm))
    (List.sorted_insertionSort _ _) (List.sorted_insertionSort _ _)

theorem board_sort_eq_of_perm {p q : GameState} (h : p.Perm q) :
    p.insertionSort symbol_key_ge = q.insertionSort symbol_key_ge :=
  List.eq_of_perm_of_sorted
    ((List.perm_insertionSort _ _).trans (h.trans (List.perm_insertionSort _ _).symm))
    (List.sorted_insertionSort _ _) (List.sorted_insertionSort _ _)

theorem forall2_perm_map_sort :
    ∀ {r q : GameState}, List.Forall₂ List.Perm r q →
      r.map (fun s => s.insertionSort stack_ge)
        = q.map (fun s => s.insertionSort stack_ge) := by
  intro r q h
  induction h with
  | nil => rfl
  | cons hab _ ih => simp [ih, pile_sort_eq_of_perm hab]

/-- Claim C3: boards that agree up to a permutation of the piles and of
the stack order inside each pile have the same canonical form. -/
theorem normalize_position_perm_invariant (p q : GameState)
    (h : pile_perm_equiv p q) : normalize_position p = normalize_position q := by
  obtain ⟨r, hpr, hrq⟩ := h
  unfold normalize_position
  apply board_sort_eq_of_perm
  have h1 : (p.map (fun s => s.insertionSort stack_ge)).Perm
      (r.map (fun s => s.insertionSort stack_ge)) := hpr.map _
  rw [← forall2_perm_map_sort hrq]
  exact h1

/-- Witness for C3 at the boards [[1], [3, 1], [2, 2], [1, 1, 1]] and
[[1, 1, 1], [1, 3], [2, 2], [1]]. -/
theorem normalize_position_perm_invariant_witness :
    normalize_position [[1], [3, 1], [2, 2], [1, 1, 1]]
      = normalize_position [[1, 1, 1], [1, 3], [2, 2], [1]] :=
  normalize_position_perm_invariant [[1], [3, 1], [2, 2], [1, 1, 1]]
    [[1, 1, 1], [1, 3], [2, 2], [1]]
    ⟨[[1, 1, 1], [3, 1], [2, 2], [1]], by decide,
      List.Forall₂.cons (by decide) (List.Forall₂.cons (by decide)
        (List.Forall₂.cons (by decide) (List.Forall₂.cons (by decide)
          List.Forall₂.nil)))⟩

/-- Claim C6: canonicalization is idempotent. -/
theorem normalize_position_idempotent (p : GameState) :
    normalize_position (normalize_position p) = normalize_position p := by
  unfold normalize_position
  have hmap : (((p.map (fun s => s.insertionSort stack_ge)).insertionSort
        symbol_key_ge).map (fun s => s.insertionSort stack_ge))
      = (p.map (fun s => s.insertionSort stack_ge)).insertionSort symbol_key_ge := by
    have : ∀ s ∈ (p.map (fun s => s.insertionSort stack_ge)).insertionSort symbol_key_ge,
        s.insertionSort stack_ge = s := by
      intro s hs
      have hs' : s ∈ p.map (fun s => s.insertionSort stack_ge) :=
        (List.perm_insertionSort _ _).mem_iff.1 hs
      rw [List.mem_map] at hs'
      obtain ⟨s0, _, rfl⟩ := hs'
      exact (List.sorted_insertionSort stack_ge s0).insertionSort_eq
    calc ((p.map (fun s => s.insertionSort stack_ge)).insertionSort
            symbol_key_ge).map (fun s => s.insertionSort stack_ge)
        = ((p.map (fun s => s.insertionSort stack_ge)).insertionSort
            symbol_key_ge).map id := List.map_congr_left (fun s hs => this s hs)
      _ = (p.map (fun s => s.insertionSort stack_ge)).insertionSort symbol_key_ge :=
          List.map_id _
  rw [hmap]
  exact (List.sorted_insertionSort symbol_key_ge _).insertionSort_eq

theorem any_congr_mem {α : Type} {p q : α → Bool} :
    ∀ {l : List α}, (∀ x ∈ l, p x = q x) → l.any p = l.any q := by
  intro l
  induction l with
  | nil => intro _; rfl
  | cons a t ih =>
    intro h
    simp only [List.any_cons, h a (by simp), ih (fun x hx => h x (by simp [hx]))]

theorem get_moves_nil_of_no_stacks {board : GameState}
    (h : get_total_stacks board = 0) : get_moves (normalize_position board) = [] := by
  rw [List.eq_nil_iff_forall_not_mem]
  intro m hm
  have hs := get_moves_stacks hm
  rw [get_total_stacks_normalize] at hs
  omega

theorem evaluate_board_fuel_congr :
    ∀ (f1 f2 : Nat) (board : GameState),
      get_total_stacks board ≤ f1 → get_total_stacks board ≤ f2 →
      evaluate_board_fuel f1 board = evaluate_board_fuel f2 board := by
  intro f1
  induction f1 using Nat.strong_induction_on with
  | _ f1 ih =>
    intro f2 board h1 h2
    match f1, f2 with
    | 0, 0 => rfl
    | 0, b + 1 =>
      have hz : get_total_stacks board = 0 := Nat.le_zero.1 h1
      simp [evaluate_board_fuel, get_moves_nil_of_no_stacks hz]
    | a + 1, 0 =>
      have hz : get_total_stacks board = 0 := Nat.le_zero.1 h2
      simp [evaluate_board_fuel, get_moves_nil_of_no_stacks hz]
    | a + 1, b + 1 =>
      simp only [evaluate_board_fuel]
      have hany : (get_moves (normalize_position board)).any
            (fun m => evaluate_board_fuel a m == get_wanted_score board)
          = (get_moves (normalize_position board)).any
            (fun m => evaluate_board_fuel b m == get_wanted_score board) := by
        apply any_congr_mem
        intro m hm
        have hs := get_moves_stacks hm
        rw [get_total_stacks_normalize] at hs
        rw [ih a (by omega) b m (by omega) (by omega)]
      rw [hany]

theorem evaluate_board_eq (board : GameState) :
    evaluate_board board =
      if (get_moves (normalize_position board)).any
          (fun m => evaluate_board m == get_wanted_score board)
      then get_wanted_score board
      else -(get_wanted_score board) := by
  unfold evaluate_board
  rw [evaluate_board_fuel_congr (get_total_stacks board) (get_total_stacks board + 1)
    board (le_refl _) (by omega)]
  simp only [evaluate_board_fuel]
  have hany : (get_moves (normalize_position board)).any
        (fun m => evaluate_board_fuel (get_total_stacks board) m == get_wanted_score board)
      = (get_moves (normalize_position board)).any
        (fun m => evaluate_board_fuel (get_total_stacks m) m == get_wanted_score board) := by
    apply any_congr_mem
    intro m hm
    have hs := get_moves_stacks hm
    rw [get_total_stacks_normalize] at hs
    rw [evaluate_board_fuel_congr (get_total_stacks board) (get_total_stacks m) m
      (by omega) (le_refl _)]
  rw [hany]

theorem is_player1_turn_cases (board : GameState) :
    is_player1_turn board = 0 ∨ is_player1_turn board = 1 := by
  unfold is_player1_turn
  exact Int.emod_two_eq _

/-- Claim C1: the evaluation function computes the backward-induction
game value.  On a terminal canonical position it returns −1 when it is
player 1 to move and +1 otherwise; on a non-terminal position it
returns the wanted score exactly when some generated child evaluates to
the wanted score, and the negated wanted score otherwise. -/
theorem evaluate_board_backward_induction (p : GameState)
    (hv : validate_board p = Except.ok ()) (hc : normalize_position p = p) :
    (get_moves p = [] →
      evaluate_board p = if is_player1_turn p = 1 then -1 else 1) ∧
    (get_moves p ≠ [] →
      ((evaluate_board p = get_wanted_score p ↔
         ∃ m ∈ get_moves p, evaluate_board m = get_wanted_score p) ∧
       ((¬ ∃ m ∈ get_moves p, evaluate_board m = get_wanted_score p) →
         evaluate_board p = -(get_wanted_score p)))) := by
  have heq := evaluate_board_eq p
  rw [hc] at heq
  have ht := is_player1_turn_cases p
  have hw : get_wanted_score p = 2 * is_player1_turn p - 1 := rfl
  constructor
  · intro h0
    rw [h0] at heq
    simp only [List.any_nil, Bool.false_eq_true, if_false] at heq
    rcases ht with ht | ht <;> rw [ht] at hw <;> simp [ht, heq, hw]
  · intro _
    cases hany : (get_moves p).any (fun m => evaluate_board m == get_wanted_score p) with
    | true =>
      rw [hany, if_pos rfl] at heq
      obtain ⟨m, hm, hbeq⟩ := List.any_eq_true.1 hany
      have hev : evaluate_board m = get_wanted_score p := by simpa using hbeq
      constructor
      · exact ⟨fun _ => ⟨m, hm, hev⟩, fun _ => heq⟩
      · intro hno
        exact absurd ⟨m, hm, hev⟩ hno
    | false =>
      rw [hany] at heq
      simp only [Bool.false_eq_true, if_false] at heq
      have hwne : get_wanted_score p ≠ 0 := by
        rcases ht with ht | ht <;> rw [ht] at hw <;> omega
      constructor
      · constructor
        · intro hl
          rw [heq] at hl
          omega
        · rintro ⟨m, hm, hev⟩
          have := List.any_eq_false.1 hany m hm
          simp [hev] at this
      · intro _
        exact heq

/-- Witness for C1 at the terminal canonical position [[12], [], [], []]
(player 2 to move, no legal moves). -/
theorem evaluate_board_backward_induction_witness :
    (get_moves [[12], [], [], []] = [] →
      evaluate_board [[12], [], [], []] =
        if is_player1_turn [[12], [], [], []] = 1 then -1 else 1) ∧
    (get_moves [[12], [], [], []] ≠ [] →
      ((evaluate_board [[12], [], [], []] = get_wanted_score [[12], [], [], []] ↔
         ∃ m ∈ get_moves [[12], [], [], []],
           evaluate_board m = get_wanted_score [[12], [], [], []]) ∧
       ((¬ ∃ m ∈ get_moves [[12], [], [], []],
           evaluate_board m = get_wanted_score [[12], [], [], []]) →
         evaluate_board [[12], [], [], []] =
           -(get_wanted_score [[12], [], [], []])))) :=
  evaluate_board_backward_induction [[12], [], [], []] (by decide) (by decide)

theorem length_le_total_stacks : ∀ (l : GameState) (x : List Int), x ∈ l →
    x.length ≤ get_total_stacks l := by
  intro l
  induction l with
  | nil => intro x hx; simp at hx
  | cons a t ih =>
    intro x hx
    unfold get_total_stacks at *
    simp only [List.map_cons, List.sum_cons]
    rcases List.mem_cons.1 hx with rfl | hx'
    · omega
    · have := ih x hx'
      omega

theorem getD_set_self {l : GameState} {i : Nat} (x : List Int) (h : i < l.length) :
    (l.set i x).getD i [] = x := by
  rw [List.getD_eq_getElem?_getD, List.getElem?_set_self h, Option.getD_some]

theorem getD_mem_of_lt {l : GameState} {i : Nat} (h : i < l.length) :
    l.getD i [] ∈ l := by
  rw [List.getD_eq_getElem?_getD, List.getElem?_eq_getElem h, Option.getD_some]
  exact List.getElem_mem h

theorem get_moves_stacks_pos {board m : GameState} (h : m ∈ get_moves board) :
    1 ≤ get_total_stacks m := by
  rw [get_moves, mem_unique_list] at h
  rcases mem_possible_moves h with ⟨it, hit, rfl⟩ | ⟨it, hit, rfl⟩
  · obtain ⟨hlt, _⟩ := same_symbol_iters_mem hit
    unfold same_symbol_apply
    rw [get_total_stacks_normalize]
    have hmem : ((board.getD it.1 []).erase it.2.1).erase it.2.2 ++ [it.2.1 + it.2.2]
        ∈ board.set it.1
          (((board.getD it.1 []).erase it.2.1).erase it.2.2 ++ [it.2.1 + it.2.2]) := by
      have h0 : (board.set it.1
            (((board.getD it.1 []).erase it.2.1).erase it.2.2 ++ [it.2.1 + it.2.2])).getD it.1 []
          ∈ board.set it.1
            (((board.getD it.1 []).erase it.2.1).erase it.2.2 ++ [it.2.1 + it.2.2]) :=
        getD_mem_of_lt (by simpa using hlt)
      rw [getD_set_self _ hlt] at h0
      exact h0
    have hle := length_le_total_stacks _ _ hmem
    simp only [List.length_append, List.length_singleton] at hle
    omega
  · obtain ⟨⟨i, j⟩, num, dir⟩ := it
    obtain ⟨hi, hj, hij, hn1, hn2⟩ := cross_symbol_iters_mem hit
    have hi' : i < board.length := hi
    have hj' : j < board.length := hj
    have hij' : i ≠ j := Nat.ne_of_lt hij
    cases dir with
    | false =>
      show 1 ≤ get_total_stacks (normalize_position
        ((board.set i ((board.getD i []).erase num)).set j
          ((board.getD j []).erase num ++ [num * 2])))
      rw [get_total_stacks_normalize]
      have hmem : (board.getD j []).erase num ++ [num * 2]
          ∈ (board.set i ((board.getD i []).erase num)).set j
            ((board.getD j []).erase num ++ [num * 2]) := by
        have h0 : ((board.set i ((board.getD i []).erase num)).set j
              ((board.getD j []).erase num ++ [num * 2])).getD j []
            ∈ (board.set i ((board.getD i []).erase num)).set j
              ((board.getD j []).erase num ++ [num * 2]) :=
          getD_mem_of_lt (by simpa using hj')
        rw [getD_set_self _ (by simpa using hj')] at h0
        exact h0
      have hle := length_le_total_stacks _ _ hmem
      simp only [List.length_append, List.length_singleton] at hle
      omega
    | true =>
      show 1 ≤ get_total_stacks (normalize_position
        ((board.set i ((board.getD i []).erase num ++ [num * 2])).set j
          ((board.getD j []).erase num)))
      rw [get_total_stacks_normalize]
      have hgd : ((board.set i ((board.getD i []).erase num ++ [num * 2])).set j
            ((board.getD j []).erase num)).getD i []
          = (board.getD i []).erase num ++ [num * 2] := by
        rw [List.getD_eq_getElem?_getD, List.getElem?_set_ne (Ne.symm hij'),
          List.getElem?_set_self hi', Option.getD_some]
      have hmem : (board.getD i []).erase num ++ [num * 2]
          ∈ (board.set i ((board.getD i []).erase num ++ [num * 2])).set j
            ((board.getD j []).erase num) := by
        have h0 : ((board.set i ((board.getD i []).erase num ++ [num * 2])).set j
              ((board.getD j []).erase num)).getD i []
            ∈ (board.set i ((board.getD i []).erase num ++ [num * 2])).set j
              ((board.getD j []).erase num) :=
          getD_mem_of_lt (by simpa using hi')
        rw [hgd] at h0
        exact h0
      have hle := length_le_total_stacks _ _ hmem
      simp only [List.length_append, List.length_singleton] at hle
      omega

theorem le_layer_bound : ∀ (layer : List GameState) (p : GameState), p ∈ layer →
    get_total_stacks p ≤ layer_bound layer := by
  intro layer
  induction layer with
  | nil => intro p hp; simp at hp
  | cons a t ih =>
    intro p hp
    unfold layer_bound at *
    simp only [List.map_cons, List.foldr_cons]
    rcases List.mem_cons.1 hp with rfl | hp'
    · exact le_max_left _ _
    · exact le_trans (ih p hp') (le_max_right _ _)

theorem layer_bound_le : ∀ (layer : List GameState) (B : Nat),
    (∀ p ∈ layer, get_total_stacks p ≤ B) → layer_bound layer ≤ B := by
  intro layer
  induction layer with
  | nil => intro B _; simp [layer_bound]
  | cons a t ih =>
    intro B h
    unfold layer_bound at *
    simp only [List.map_cons, List.foldr_cons]
    exact max_le (h a (by simp)) (ih B (fun p hp => h p (by simp [hp])))

theorem expand_layer_mem {layer : List GameState} {m : GameState}
    (hm : m ∈ expand_layer layer) :
    ∃ p ∈ layer, get_total_stacks m + 1 = get_total_stacks p := by
  unfold expand_layer at hm
  rw [mem_unique_list, List.mem_flatMap] at hm
  obtain ⟨p, hp, hmp⟩ := hm
  have hs := get_moves_stacks hmp
  rw [get_total_stacks_normalize] at hs
  exact ⟨p, hp, hs⟩

theorem expand_layer_bound_lt {layer : List GameState} (hne : expand_layer layer ≠ []) :
    layer_bound (expand_layer layer) < layer_bound layer := by
  obtain ⟨m0, hm0⟩ := List.exists_mem_of_ne_nil _ hne
  obtain ⟨p0, hp0, hs0⟩ := expand_layer_mem hm0
  have hb0 := le_layer_bound layer p0 hp0
  have hle : layer_bound (expand_layer layer) ≤ layer_bound layer - 1 := by
    apply layer_bound_le
    intro m hm
    obtain ⟨p, hp, hs⟩ := expand_layer_mem hm
    have := le_layer_bound layer p hp
    omega
  omega

theorem expand_layer_nil_of_bound_zero {layer : List GameState}
    (h : layer_bound layer = 0) : expand_layer layer = [] := by
  rw [List.eq_nil_iff_forall_not_mem]
  intro m hm
  obtain ⟨p, hp, hs⟩ := expand_layer_mem hm
  have := le_layer_bound layer p hp
  omega

theorem expand_layers_fuel_stable :
    ∀ (f : Nat) (layer : List GameState), layer_bound layer ≤ f →
      expand_layers_fuel f layer = expand_layers layer := by
  intro f
  induction f using Nat.strong_induction_on with
  | _ f ih =>
    intro layer hb
    match f with
    | 0 =>
      unfold expand_layers
      rw [Nat.le_zero.1 hb]
    | f + 1 =>
      unfold expand_layers
      cases hn : expand_layer layer with
      | nil =>
        cases hbl : layer_bound layer with
        | zero => simp [expand_layers_fuel, hn]
        | succ c => simp [expand_layers_fuel, hn]
      | cons x xs =>
        have hne : expand_layer layer ≠ [] := by rw [hn]; simp
        have hlt := expand_layer_bound_lt hne
        rw [hn] at hlt
        cases hbl : layer_bound layer with
        | zero =>
          rw [expand_layer_nil_of_bound_zero hbl] at hn
          exact List.noConfusion hn
        | succ c =>
          rw [hbl] at hlt
          simp only [expand_layers_fuel, hn, List.cons_ne_nil, if_neg, if_false]
          have e1 : expand_layers_fuel f (x :: xs) = expand_layers (x :: xs) :=
            ih f (by omega) (x :: xs) (by omega)
          have e2 : expand_layers_fuel c (x :: xs) = expand_layers (x :: xs) :=
            ih c (by omega) (x :: xs) (by omega)
          rw [e1, e2]

theorem expand_layers_eq (layer : List GameState) :
    expand_layers layer =
      layer :: (if expand_layer layer = [] then []
                else expand_layers (expand_layer layer)) := by
  rw [← expand_layers_fuel_stable (layer_bound layer + 1) layer (by omega)]
  cases hn : expand_layer layer with
  | nil => simp [expand_layers_fuel, hn]
  | cons x xs =>
    have hne : expand_layer layer ≠ [] := by rw [hn]; simp
    have hlt := expand_layer_bound_lt hne
    rw [hn] at hlt
    simp only [expand_layers_fuel, hn, List.cons_ne_nil, if_neg, if_false]
    rw [expand_layers_fuel_stable (layer_bound layer) (x :: xs) (by omega)]

theorem getLastD_default_irrel {α : Type} :
    ∀ (t : List α) (b d d' : α), (b :: t).getLastD d = (b :: t).getLastD d' := by
  intro t
  cases t with
  | nil => intro b d d'; rfl
  | cons c u =>
    intro b d d'
    rw [List.getLastD_cons d b (c :: u), List.getLastD_cons d' b (c :: u)]

theorem getLastD_cons_ne {α : Type} (a d : α) {l : List α} (h : l ≠ []) :
    (a :: l).getLastD d = l.getLastD d := by
  cases l with
  | nil => exact absurd rfl h
  | cons b t =>
    rw [List.getLastD_cons]
    exact getLastD_default_irrel t b a d

theorem expand_layers_ne_nil (layer : List GameState) : expand_layers layer ≠ [] := by
  rw [expand_layers_eq]
  simp

theorem expand_layers_last_aux :
    ∀ (n : Nat) (layer : List GameState), layer_bound layer ≤ n →
      expand_layer ((expand_layers layer).getLastD []) = [] := by
  intro n
  induction n with
  | zero =>
    intro layer hb
    have hnil := expand_layer_nil_of_bound_zero (Nat.le_zero.1 hb)
    rw [expand_layers_eq, hnil]
    simpa using hnil
  | succ n ih =>
    intro layer hb
    rw [expand_layers_eq]
    by_cases hn : expand_layer layer = []
    · rw [if_pos hn, List.getLastD_cons]
      exact hn
    · have hlt := expand_layer_bound_lt hn
      rw [if_neg hn]
      rw [getLastD_cons_ne layer [] (expand_layers_ne_nil (expand_layer layer))]
      exact ih (expand_layer layer) (by omega)

theorem expand_layers_last (layer : List GameState) :
    expand_layer ((expand_layers layer).getLastD []) = [] :=
  expand_layers_last_aux (layer_bound layer) layer (le_refl _)

theorem expand_layers_length_aux :
    ∀ (n : Nat) (layer : List GameState), layer_bound layer ≤ n →
      (expand_layers layer).length ≤ max (layer_bound layer) 1 := by
  intro n
  induction n with
  | zero =>
    intro layer hb
    rw [expand_layers_eq, expand_layer_nil_of_bound_zero (Nat.le_zero.1 hb)]
    simp
  | succ n ih =>
    intro layer hb
    rw [expand_layers_eq]
    by_cases hn : expand_layer layer = []
    · rw [if_pos hn]
      simp
    · have hne : expand_layer layer ≠ [] := hn
      have hlt := expand_layer_bound_lt hne
      rw [if_neg hne]
      have hnext := ih (expand_layer layer) (by omega)
      -- a nonempty expansion means some parent has at least one move,
      -- and every move target still has at least one stack
      have hpos : 1 ≤ layer_bound (expand_layer layer) := by
        obtain ⟨m0, hm0⟩ := List.exists_mem_of_ne_nil _ hne
        have hb0 := le_layer_bound (expand_layer layer) m0 hm0
        have hm0pos : 1 ≤ get_total_stacks m0 := by
          unfold expand_layer at hm0
          rw [mem_unique_list, List.mem_flatMap] at hm0
          obtain ⟨p, _, hmp⟩ := hm0
          exact get_moves_stacks_pos hmp
        omega
      simp only [List.length_cons]
      have h2 : 2 ≤ layer_bound layer := by omega
      rw [Nat.max_eq_left (by omega)]
      rw [Nat.max_eq_left (by omega)] at hnext
      omega

/-- Claim C7: the layer loop of get_all_positions terminates.  Started
from the 16 starting configurations it builds at most 12 layers; the
loop appends the expansion of a layer exactly when that expansion is
nonempty, the final layer's expansion is always empty, and the bound
holds because every generated position has exactly one stack fewer than
its parent.  (`expand_layers` is a total Lean function, so the loop
terminates on every input by construction.) -/
theorem get_all_positions_layers :
    (expand_layers start_layer).length ≤ 12 ∧
    (∀ layer, expand_layers layer =
      layer :: (if expand_layer layer = [] then []
                else expand_layers (expand_layer layer))) ∧
    (∀ layer, expand_layer ((expand_layers layer).getLastD []) = []) ∧
    (∀ board m, m ∈ get_moves board →
      get_total_stacks m + 1 = get_total_stacks board) ∧
    get_all_positions = (expand_layers start_layer).flatten := by
  refine ⟨?_, expand_layers_eq, expand_layers_last,
    fun _ _ hm => get_moves_stacks hm, rfl⟩
  have h := expand_layers_length_aux (layer_bound start_layer) start_layer (le_refl _)
  have hb : layer_bound start_layer = 12 := by decide
  rw [hb] at h
  simpa using h

/-- Witness for C7: the stack-decrement fact instantiated at the
position [[6, 6], [], [], []] and its unique move. -/
theorem get_all_positions_layers_witness :
    get_total_stacks [[12], [], [], []] + 1 = get_total_stacks [[6, 6], [], [], []] :=
  get_all_positions_layers.2.2.2.1 [[6, 6], [], [], []] [[12], [], [], []] (by decide)

/-- Claim C10: in one call of evaluate_board, a store lookup that
fetches no row makes the call fail (board_data[0] subscripts None)
before any computation or write, and when the call succeeds every write
it performs is an UPDATE — the INSERT branch is unreachable, so
evaluate_board never creates a record. -/
theorem evaluate_board_step_no_insert :
    (∀ (lookup : GameState → Option (Option Int)) (child_eval : GameState → Int)
        (board : GameState),
      lookup (normalize_position board) = none →
      evaluate_board_step lookup child_eval board = none) ∧
    (∀ (lookup : GameState → Option (Option Int)) (child_eval : GameState → Int)
        (board : GameState) (result : Int × List DbWrite),
      evaluate_board_step lookup child_eval board = some result →
      ∀ w ∈ result.2, w.isInsert = false) := by
  constructor
  · intro lookup ce board h
    simp only [evaluate_board_step, h]
  · intro lookup ce board result h w hw
    cases hl : lookup (normalize_position board) with
    | none =>
      simp only [evaluate_board_step, hl] at h
      exact Option.noConfusion h
    | some ev =>
      simp only [evaluate_board_step, hl] at h
      by_cases ht : option_truthy ev = true
      · rw [if_pos ht] at h
        obtain rfl := Option.some.inj h
        simp at hw
      · rw [if_neg ht] at h
        obtain rfl := Option.some.inj h
        have hw' : w = DbWrite.update (normalize_position board)
            (if (get_moves (normalize_position board)).any
                (fun m => ce m == get_wanted_score board)
             then get_wanted_score board else -(get_wanted_score board)) := by
          simpa using hw
        rw [hw']
        rfl

/-- Witness for C10: a lookup miss on the canonical terminal position
fails the call, and a NULL-eval hit performs exactly one UPDATE. -/
theorem evaluate_board_step_no_insert_witness :
    evaluate_board_step (fun _ => none) (fun _ => 0) [[12], [], [], []] = none ∧
    (∀ w ∈ [DbWrite.update [[12], [], [], []] 1], DbWrite.isInsert w = false) := by
  constructor
  · exact evaluate_board_step_no_insert.1 (fun _ => none) (fun _ => 0)
      [[12], [], [], []] rfl
  · intro w hw
    exact evaluate_board_step_no_insert.2 (fun _ => some none) evaluate_board
      [[12], [], [], []] (1, [DbWrite.update [[12], [], [], []] 1]) (by decide) w hw

/-- Claim C5 (amended): the per-position rules of the best-move pass.
A position fetched as determined receives explanation "any" and no
best-move update (this covers every terminal position, which the
determinacy pass marks determined); a non-determined position with
exactly one winning move gets that move with explanation
"only winning move"; with no winning move and exactly one
non-determined move, that move with explanation
"only move not determined losing"; and the pass never produces the
tags "forced" or "terminal". -/
theorem update_simple_best_move_row_rules
    (is_determined : Bool) (possible_moves : List GameState) (wanted_score : Int)
    (eval : GameState → Int) (move_det : GameState → Bool) :
    (is_determined = true →
      update_simple_best_move_row is_determined possible_moves wanted_score eval move_det
        = (none, some "any")) ∧
    (∀ m, is_determined = false →
      possible_moves.filter (fun m => eval m == wanted_score) = [m] →
      update_simple_best_move_row is_determined possible_moves wanted_score eval move_det
        = (some m, some "only winning move")) ∧
    (∀ m, is_determined = false →
      possible_moves.filter (fun m => eval m == wanted_score) = [] →
      possible_moves.filter (fun m => ! move_det m) = [m] →
      update_simple_best_move_row is_determined possible_moves wanted_score eval move_det
        = (some m, some "only move not determined losing")) ∧
    ((update_simple_best_move_row is_determined possible_moves wanted_score eval
        move_det).2 ≠ some "forced" ∧
     (update_simple_best_move_row is_determined possible_moves wanted_score eval
        move_det).2 ≠ some "terminal") := by
  refine ⟨?_, ?_, ?_, ?_⟩
  · intro h
    simp [update_simple_best_move_row, h]
  · intro m h hf
    simp [update_simple_best_move_row, h, hf]
  · intro m h hf hnd
    simp [update_simple_best_move_row, h, hf, hnd]
  · refine ⟨?_, ?_⟩
    all_goals
      unfold update_simple_best_move_row
      split
      · simp
      · dsimp only
        split
        · simp
        · split
          · split
            · simp
            · simp
          · simp

/-- Witness for the amended C5, instantiating each of the three rules
at concrete store contents. -/
theorem update_simple_best_move_row_rules_witness :
    update_simple_best_move_row true [] 1 (fun _ => 0) (fun _ => false)
      = (none, some "any") ∧
    update_simple_best_move_row false [[[12], [], [], []]] 1 (fun _ => 1)
        (fun _ => true)
      = (some [[12], [], [], []], some "only winning move") ∧
    update_simple_best_move_row false [[[12], [], [], []]] 1 (fun _ => -1)
        (fun _ => false)
      = (some [[12], [], [], []], some "only move not determined losing") :=
  ⟨(update_simple_best_move_row_rules true [] 1 (fun _ => 0) (fun _ => false)).1 rfl,
   (update_simple_best_move_row_rules false [[[12], [], [], []]] 1 (fun _ => 1)
      (fun _ => true)).2.1 [[12], [], [], []] rfl (by decide),
   (update_simple_best_move_row_rules false [[[12], [], [], []]] 1 (fun _ => -1)
      (fun _ => false)).2.2.1 [[12], [], [], []] rfl (by decide) (by decide)⟩

/-- Counterexample to claim C5 as stated: the position
[[6, 6], [], [], []] has exactly one legal move, the winning move
[[12], [], [], []], yet the best-move pass records the explanation
"only winning move" for it, not "forced" (and a terminal position,
being determined, is tagged "any", not "terminal"); no rule in the code
ever writes the tags "forced" or "terminal". -/
theorem update_simple_best_move_row_not_forced :
    get_moves [[6, 6], [], [], []] = [[[12], [], [], []]] ∧
    update_simple_best_move_row false (get_moves [[6, 6], [], [], []])
        (get_wanted_score [[6, 6], [], [], []]) evaluate_board (fun _ => true)
      = (some [[12], [], [], []], some "only winning move") ∧
    (update_simple_best_move_row false (get_moves [[6, 6], [], [], []])
        (get_wanted_score [[6, 6], [], [], []]) evaluate_board (fun _ => true)).2
      ≠ some "forced" ∧
    update_simple_best_move_row true (get_moves [[12], [], [], []])
        (get_wanted_score [[12], [], [], []]) evaluate_board (fun _ => true)
      = (none, some "any") ∧
    (update_simple_best_move_row true (get_moves [[12], [], [], []])
        (get_wanted_score [[12], [], [], []]) evaluate_board (fun _ => true)).2
      ≠ some "terminal" := by
  refine ⟨by decide, by decide, by decide, by decide, by decide⟩
